import Mathlib

/-!
# Verification of the COE164MidP encoding core

Shallow embedding of the repository's Rust sources:

* `src/src/flac/encoder/crc.rs` — bit-sequence CRC engine (`CrcOptions`,
  `build_crc8`/`build_crc16`, `combine_crc8`/`combine_crc16`, `bin_to_int`);
* `src/src/flac/encoder/utf8.rs` — variable-length integer encoder
  (`Utf8Encoder::encode`, `int_to_bin`);
* `src/src/flac/rice.rs` — Rice residual coder (`RiceEncoder::encode`);
* `src/src/wav.rs` — PCM WAV reader (`WaveReader::read_riff_chunk`,
  `read_data_chunk`, the `PCMWaveDataChunk` and `PCMWaveDataChunkWindow`
  iterators, `byte_rate`, `block_align`).

Machine integers (`u8`, `u16`, `u32`, `u64`) are embedded as `ℕ` with an
explicit `% 2 ^ width` at every operation that can wrap in the source, and
operations that panic in Rust (unsigned underflow, out-of-bounds index) are
embedded as `Option`-valued functions returning `none` at the panic.
-/

/-! ## Generic bit-sequence helpers (specification side)

The common currency of the CRC engine is a list of naturals, each `0` or `1`,
most significant bit first. -/

/-- All elements of the list are single bits (`0` or `1`). -/
def bits01 (l : List ℕ) : Prop := ∀ b ∈ l, b = 0 ∨ b = 1

instance (l : List ℕ) : Decidable (bits01 l) := by
  unfold bits01; infer_instance

/-- Value of a bit sequence, most significant bit first. -/
def valMSB (l : List ℕ) : ℕ := l.foldl (fun a b => 2 * a + b) 0

/-- The `w`-bit representation of `c`, most significant bit first. -/
def toBitsMSB : ℕ → ℕ → List ℕ
  | 0, _ => []
  | w + 1, c => c / 2 ^ w :: toBitsMSB w (c % 2 ^ w)

/-! ## CRC engine — `src/src/flac/encoder/crc.rs`

`CrcOptions { poly, poly_len }` is embedded by passing `w := poly_len` and
`p := poly` explicitly.  The claims instantiate `poly_len = 8` on the `u8`
engine (`build_crc8`) and `poly_len = 16` on the `u16` engine (`build_crc16`);
in both instantiations the machine width equals `poly_len`, so the wrapping
modulus of the machine arithmetic is written `2 ^ w`. -/

/-- One iteration of the division loop of `build_crc8`/`build_crc16`:
if the register's MSB is set, subtract it, shift in the next bit and XOR the
polynomial; otherwise shift in the next bit and XOR `0`. -/
def crcStep (w p div b : ℕ) : ℕ :=
  if 2 ^ (w - 1) ≤ div then
    ((((div - 2 ^ (w - 1)) * 2) % 2 ^ w + b) % 2 ^ w) ^^^ p
  else
    (((div * 2) % 2 ^ w + b) % 2 ^ w) ^^^ 0

/-- `CrcOptions::bin_to_int`: read the first `w` entries of `bin_fmt` as a
most-significant-bit-first number, adding `2 ^ (w - 1 - i)` for every entry
equal to `1`. -/
def binToInt (w : ℕ) (binFmt : List ℕ) : ℕ :=
  (List.range w).foldl
    (fun intFmt i => if binFmt.getD i 0 = 1 then intFmt + 2 ^ (w - 1 - i) else intFmt) 0

/-- `CrcOptions::build_crc8` / `build_crc16`: append `w` zero bits to the data,
seed the register from the first `w` bits of the padded dividend, then run the
division loop once per original data bit. -/
def buildCrc (w p : ℕ) (data : List ℕ) : ℕ :=
  let divOrig := data ++ List.replicate w 0
  (List.range data.length).foldl
    (fun div i => crcStep w p div (divOrig.getD (w + i) 0))
    (binToInt w divOrig)

/-- The loop of `combine_crc8`/`combine_crc16`: `i` more bits to emit; each
step pushes `checksum / 2 ^ (w - 1)` (the MSB) and shifts the checksum left by
one, wrapping at the machine width (`checksum << 1` on `u8`/`u16`). -/
def combineLoop (w : ℕ) : ℕ → ℕ → List ℕ
  | 0, _ => []
  | i + 1, checksum => checksum / 2 ^ (w - 1) :: combineLoop w i (checksum * 2 % 2 ^ w)

/-- `CrcOptions::combine_crc8` / `combine_crc16`: push the `w` bits of the
checksum, most significant first, onto the end of the data. -/
def combineCrc (w : ℕ) (data : List ℕ) (checksum : ℕ) : List ℕ :=
  data ++ combineLoop w w checksum

/-- `build_crc8` evaluates `base_two.pow((self.poly_len - 1) as u32)`; for
`poly_len = 0` the subtraction `self.poly_len - 1` underflows on the unsigned
type, which is a panic, embedded here as `none`.  For nonzero `poly_len` the
computation is `buildCrc`. -/
def buildCrcChecked (w p : ℕ) (data : List ℕ) : Option ℕ :=
  if w = 0 then none else some (buildCrc w p data)

/-- Division-loop register fold over a list of already-padded bits. -/
def crcFold (w p r : ℕ) (l : List ℕ) : ℕ := l.foldl (crcStep w p) r

/-- The ideal one-step polynomial reduction: subtract the degree-`w` generator
(implicit leading `1` plus the stored polynomial `p`) when the register
overflows `w` bits. -/
def polyReduce (w p x : ℕ) : ℕ := if 2 ^ w ≤ x then (x - 2 ^ w) ^^^ p else x

/-! ## Rice residual coder — `src/src/flac/rice.rs` -/

/-- The binary-part loop of `RiceEncoder::encode`: for `i` in `(0..k).rev()`,
push `bin / (1 << i)` and subtract that bit's weight from `bin`. -/
def riceBinLoop : ℕ → ℕ → List ℕ
  | 0, _ => []
  | i + 1, bin => bin / (1 <<< i) :: riceBinLoop i (bin - bin / (1 <<< i) * (1 <<< i))

/-- Body of `RiceEncoder::encode` with its two local constants `param` and `k`
(hard-coded as `16` and `4` in the source) lifted to arguments: `num >> k`
one-bits, a `0` stop bit, then the binary-part loop on `num & (param - 1)`. -/
def riceEncodeWith (param k num : ℕ) : List ℕ :=
  List.replicate (num >>> k) 1 ++ [0] ++ riceBinLoop k (num &&& (param - 1))

/-- `RiceEncoder::encode`: the source instantiates `param = 16`, `k = 4`. -/
def RiceEncoder.encode (num : ℕ) : List ℕ := riceEncodeWith 16 4 num

/-- Modelled from the spec: a Rice decoder is missing from the source (§4.3:
"Decoding (required for round-trip testing even though not present in the
current surface)").  Count leading 1-bits until a 0-bit, multiply that count by
`2 ^ k`, then add the next `k` bits read as an unsigned integer. -/
def decode_rice (bits : List ℕ) (k : ℕ) : ℕ :=
  (bits.takeWhile (fun b => b == 1)).length * 2 ^ k +
    valMSB ((bits.drop ((bits.takeWhile (fun b => b == 1)).length + 1)).take k)

/-! ## Variable-length integer encoder — `src/src/flac/encoder/utf8.rs` -/

/-- `int_to_bin`: while the value is positive, push `int_fmt - int_fmt/2*2`
and halve; the bits come out least significant first, and `0` gives `[]`. -/
def int_to_bin (intFmt : ℕ) : List ℕ :=
  if h : intFmt = 0 then []
  else (intFmt - intFmt / 2 * 2) :: int_to_bin (intFmt / 2)
termination_by intFmt
decreasing_by exact Nat.div_lt_self (Nat.pos_of_ne_zero h) (by norm_num)

/-- The scan `while bin_temp[bit_sel] != 2 { bit_sel -= 1 }` of
`Utf8Encoder::encode`: walk left from `bitSel` to the nearest open (`2`) slot;
reaching index `0` on a non-slot decrements an unsigned zero, a panic,
embedded as `none`. -/
def findSlot (binTemp : List ℕ) : ℕ → Option ℕ
  | 0 => if binTemp.getD 0 0 = 2 then some 0 else none
  | j + 1 => if binTemp.getD (j + 1) 0 = 2 then some (j + 1) else findSlot binTemp j

/-- The fill loop of `Utf8Encoder::encode`: for each bit of `num_vec` (least
significant first), find the next open slot right-to-left and overwrite it. -/
def fillLoop : List ℕ → List ℕ → ℕ → Option (List ℕ)
  | binTemp, [], _ => some binTemp
  | binTemp, b :: rest, bitSel =>
    match findSlot binTemp bitSel with
    | none => none
    | some j => fillLoop (binTemp.set j b) rest j

/-- `Utf8Encoder::encode`: pick a prefix/continuation template by the number
of significant bits, fill its `2` slots right-to-left with the bits of `num`
(least significant first), then replace the remaining `2`s by `0`.
`none` embeds the panics of the source: with an empty template (more than 40
significant bits) `bin_temp.len() - 1` underflows, and when the bits outnumber
the open slots the slot scan underflows `bit_sel` (see `findSlot`). -/
def Utf8Encoder.encode (num : ℕ) : Option (List ℕ) :=
  let numVec := int_to_bin num
  let binTemp : List ℕ :=
    if numVec.length ≤ 7 then [0,2,2,2,2,2,2]
    else if numVec.length ≤ 11 then [1,1,0,2,2,2,2,2,1,0,2,2,2,2,2,2]
    else if numVec.length ≤ 16 then
      [1,1,1,0,2,2,2,2,1,0,2,2,2,2,2,2,1,0,2,2,2,2,2,2]
    else if numVec.length ≤ 21 then
      [1,1,1,1,0,2,2,2,1,0,2,2,2,2,2,2,1,0,2,2,2,2,2,2,1,0,2,2,2,2,2,2]
    else if numVec.length ≤ 26 then
      [1,1,1,1,1,0,2,2,1,0,2,2,2,2,2,2,1,0,2,2,2,2,2,2,1,0,2,2,2,2,2,2,
       1,0,2,2,2,2,2,2]
    else if numVec.length ≤ 31 then
      [1,1,1,1,1,1,0,2,1,0,2,2,2,2,2,2,1,0,2,2,2,2,2,2,1,0,2,2,2,2,2,2,
       1,0,2,2,2,2,2,2,1,0,2,2,2,2,2,2]
    else if numVec.length ≤ 40 then
      [1,1,1,1,1,1,1,0,1,0,2,2,2,2,2,2,1,0,2,2,2,2,2,2,1,0,2,2,2,2,2,2,
       1,0,2,2,2,2,2,2,1,0,2,2,2,2,2,2,1,0,2,2,2,2,2,2]
    else []
  if binTemp = [] then none
  else
    match fillLoop binTemp numVec (binTemp.length - 1) with
    | none => none
    | some filled => some (filled.map (fun b => if b = 2 then 0 else b))

/-! ## PCM WAV reader — `src/src/wav.rs`

The file handle / `BufReader` is embedded as the list of bytes not yet
consumed; `read_exact` is `take`/`drop` with `none` (the iterator's `None`)
when fewer bytes remain than requested. -/

/-- `RiffChunk`: the parsed 12-byte container identification header. -/
structure RiffChunk where
  file_size : ℕ
  is_big_endian : Bool
deriving DecidableEq

/-- `WaveReaderError`: the reader's error type. -/
inductive WaveReaderError where
  | NotRiffError
  | NotWaveError
  | NotPCMError
  | ChunkTypeError
  | DataAlignmentError
  | ReadError
deriving DecidableEq

/-- `PCMWaveFormatChunk`: channel count, sample rate and bits per sample. -/
structure PCMWaveFormatChunk where
  num_channels : ℕ
  samp_rate : ℕ
  bps : ℕ
deriving DecidableEq

/-- `PCMWaveDataChunk`: declared payload byte length, the format, and the
not-yet-consumed bytes of the underlying reader. -/
structure PCMWaveDataChunk where
  size_bytes : ℕ
  format : PCMWaveFormatChunk
  data : List ℕ
deriving DecidableEq

/-- `PCMWaveDataChunkWindow`: a window size and the underlying data chunk. -/
structure PCMWaveDataChunkWindow where
  chunk_size : ℕ
  data_chunk : PCMWaveDataChunk
deriving DecidableEq

deriving instance DecidableEq for Except

/-- `WaveReader::read_riff_chunk`: read 12 bytes; require tag `RIFF` or
`RIFX` (the latter records big-endian), read the 4-byte size in the matching
byte order, require format tag `WAVE`. -/
def readRiffChunk (bytes : List ℕ) : Except WaveReaderError RiffChunk :=
  if bytes.length < 12 then Except.error WaveReaderError.ReadError
  else if (bytes.take 12).take 4 ≠ [0x52, 0x49, 0x46, 0x46] ∧
      (bytes.take 12).take 4 ≠ [0x52, 0x49, 0x46, 0x58] then
    Except.error WaveReaderError.NotRiffError
  else if (bytes.take 12).drop 8 ≠ [0x57, 0x41, 0x56, 0x45] then
    Except.error WaveReaderError.NotWaveError
  else
    Except.ok
      { file_size :=
          if (bytes.take 12).take 4 = [0x52, 0x49, 0x46, 0x58] then
            (bytes.take 12).getD 4 0 * 2 ^ 24 + (bytes.take 12).getD 5 0 * 2 ^ 16 +
              (bytes.take 12).getD 6 0 * 2 ^ 8 + (bytes.take 12).getD 7 0
          else
            (bytes.take 12).getD 4 0 + (bytes.take 12).getD 5 0 * 2 ^ 8 +
              (bytes.take 12).getD 6 0 * 2 ^ 16 + (bytes.take 12).getD 7 0 * 2 ^ 24,
        is_big_endian := decide ((bytes.take 12).take 4 = [0x52, 0x49, 0x46, 0x58]) }

/-- `WaveReader::read_data_chunk` (after the seek): read the 8-byte payload
header, require the little-endian tag `data` (`0x61746164`), record the
declared byte length, and keep the rest of the file as the chunk's reader. -/
def readDataChunk (fmtInfo : PCMWaveFormatChunk) (bytes : List ℕ) :
    Except WaveReaderError PCMWaveDataChunk :=
  if bytes.length < 8 then Except.error WaveReaderError.ReadError
  else if bytes.getD 0 0 + bytes.getD 1 0 * 2 ^ 8 + bytes.getD 2 0 * 2 ^ 16 +
      bytes.getD 3 0 * 2 ^ 24 ≠ 0x61746164 then
    Except.error WaveReaderError.ChunkTypeError
  else
    Except.ok
      { size_bytes := bytes.getD 4 0 + bytes.getD 5 0 * 2 ^ 8 + bytes.getD 6 0 * 2 ^ 16 +
          bytes.getD 7 0 * 2 ^ 24,
        format := fmtInfo,
        data := bytes.drop 8 }

/-- `PCMWaveFormatChunk::byte_rate`: `samp_rate * num_channels * bps / 8` on
`u32` (multiplications wrap at `2 ^ 32`). -/
def byte_rate (f : PCMWaveFormatChunk) : ℕ :=
  (f.samp_rate * f.num_channels % 2 ^ 32) * f.bps % 2 ^ 32 / 8

/-- `PCMWaveFormatChunk::block_align`: `num_channels * bps / 8` on `u16`
(the multiplication wraps at `2 ^ 16`). -/
def block_align (f : PCMWaveFormatChunk) : ℕ :=
  f.num_channels * f.bps % 2 ^ 16 / 8

/-- `LittleEndian::read_i16` on a byte slice: the first two bytes as a signed
16-bit integer; a slice shorter than two bytes is a panic (`none`). -/
def readI16LE : List ℕ → Option ℤ
  | b0 :: b1 :: _ =>
    some (if b0 + 256 * b1 < 32768 then ((b0 + 256 * b1 : ℕ) : ℤ)
      else ((b0 + 256 * b1 : ℕ) : ℤ) - 65536)
  | _ => none

/-- The per-sample `match total_channels` of `<PCMWaveDataChunk as
Iterator>::next`: channel counts `1` and the catch-all read `sample_bytes[0]`
as `i64` (an empty group is an index panic, `none`); channel count `2` reads a
signed little-endian 16-bit integer. -/
def decodeSample (totalChannels : ℕ) (sampleBytes : List ℕ) : Option ℤ :=
  match totalChannels with
  | 1 => sampleBytes.head?.map (fun b => (b : ℤ))
  | 2 => readI16LE sampleBytes
  | _ => sampleBytes.head?.map (fun b => (b : ℤ))

/-- `chunks_exact(n)` of the Rust slice API: the `⌊len / n⌋` full consecutive
`n`-byte chunks, the remainder dropped (the source never calls it with a
remainder; `n = 0` is a panic in Rust and is guarded by `dataChunkNext`). -/
def chunksExact (n : ℕ) (l : List ℕ) : List (List ℕ) :=
  (List.range (l.length / n)).map (fun i => (l.drop (i * n)).take n)

/-- `<PCMWaveDataChunk as Iterator>::next`: read `block_align` bytes
(`none` when fewer remain — end of stream), split them into
`bps / 8`-byte groups and decode each by channel count.  The declared
`size_bytes` is never consulted.  `bps / 8 = 0` would make the source panic in
`chunks_exact` (`none`). -/
def dataChunkNext (c : PCMWaveDataChunk) :
    Option (List (Option ℤ) × PCMWaveDataChunk) :=
  if c.data.length < block_align c.format then none
  else if c.format.bps / 8 = 0 then none
  else
    some
      ((chunksExact (c.format.bps / 8) (c.data.take (block_align c.format))).map
          (decodeSample c.format.num_channels),
        { c with data := c.data.drop (block_align c.format) })

/-- The loop of `<PCMWaveDataChunkWindow as Iterator>::next`: pull up to `n`
sample groups; if the stream ends first, return the partial buffer, or `None`
when the buffer is empty. -/
def windowNextLoop : ℕ → PCMWaveDataChunk → List (List (Option ℤ)) →
    Option (List (List (Option ℤ))) × PCMWaveDataChunk
  | 0, c, buffer => (some buffer, c)
  | n + 1, c, buffer =>
    match dataChunkNext c with
    | some (samples, c2) => windowNextLoop n c2 (buffer ++ [samples])
    | none => (if buffer = [] then none else some buffer, c)

/-- `<PCMWaveDataChunkWindow as Iterator>::next`. -/
def windowNext (wdw : PCMWaveDataChunkWindow) :
    Option (List (List (Option ℤ))) × PCMWaveDataChunk :=
  windowNextLoop wdw.chunk_size wdw.data_chunk []

/-- `PCMWaveDataChunk::chunks_byte_rate`: window sized to `byte_rate` of the
format. -/
def PCMWaveDataChunk.chunks_byte_rate (c : PCMWaveDataChunk) : PCMWaveDataChunkWindow :=
  { chunk_size := byte_rate c.format, data_chunk := c }

/-- `PCMWaveDataChunk::chunks`: window of a caller-chosen group count. -/
def PCMWaveDataChunk.chunks (c : PCMWaveDataChunk) (chunk_size : ℕ) :
    PCMWaveDataChunkWindow :=
  { chunk_size := chunk_size, data_chunk := c }

/-- Iterate `k` window pulls, recording each pull's result. -/
def windowPulls : ℕ → PCMWaveDataChunkWindow → List (Option (List (List (Option ℤ))))
  | 0, _ => []
  | k + 1, wdw =>
    (windowNext wdw).1 ::
      windowPulls k { chunk_size := wdw.chunk_size, data_chunk := (windowNext wdw).2 }

/-- The sample groups produced by `n` successive pulls of `dataChunkNext`
(used to state what a full window contains). -/
def pulledGroups (fmt : PCMWaveFormatChunk) : ℕ → List ℕ → List (List (Option ℤ))
  | 0, _ => []
  | n + 1, data =>
    (chunksExact (fmt.bps / 8) (data.take (block_align fmt))).map
        (decodeSample fmt.num_channels) ::
      pulledGroups fmt n (data.drop (block_align fmt))

/-! ### XOR facts over ℕ used by the CRC correctness proof -/

theorem two_pow_xor_eq_add {w a : ℕ} (h : a < 2 ^ w) : 2 ^ w ^^^ a = 2 ^ w + a := by
  apply Nat.eq_of_testBit_eq
  intro i
  rcases lt_trichotomy i w with hi | rfl | hi
  · rw [Nat.testBit_xor, Nat.testBit_two_pow_of_ne (by omega), Nat.testBit_two_pow_add_gt hi]
    simp
  · rw [Nat.testBit_xor, Nat.testBit_two_pow_self, Nat.testBit_two_pow_add_eq,
      Nat.testBit_eq_false_of_lt h]
    simp
  · have h2 : 2 ^ (w + 1) ≤ 2 ^ i := Nat.pow_le_pow_right (by omega) (by omega)
    have h3 : 2 ^ (w + 1) = 2 * 2 ^ w := pow_succ' 2 w
    rw [Nat.testBit_xor, Nat.testBit_two_pow_of_ne (by omega),
      Nat.testBit_eq_false_of_lt (show 2 ^ w + a < 2 ^ i by omega),
      Nat.testBit_eq_false_of_lt (show a < 2 ^ i by omega)]
    rfl

theorem xor_pair_cancel (t a b : ℕ) : (t ^^^ a) ^^^ (t ^^^ b) = a ^^^ b := by
  apply Nat.eq_of_testBit_eq
  intro i
  simp only [Nat.testBit_xor]
  cases Nat.testBit t i <;> cases Nat.testBit a i <;> cases Nat.testBit b i <;> rfl

theorem xor_pair_cancel_right (a b t : ℕ) : (a ^^^ t) ^^^ (b ^^^ t) = a ^^^ b := by
  apply Nat.eq_of_testBit_eq
  intro i
  simp only [Nat.testBit_xor]
  cases Nat.testBit t i <;> cases Nat.testBit a i <;> cases Nat.testBit b i <;> rfl

theorem two_mul_xor (x y : ℕ) : 2 * (x ^^^ y) = 2 * x ^^^ 2 * y := by
  have e : ∀ z : ℕ, 2 * z = z <<< 1 := by
    intro z
    rw [Nat.shiftLeft_eq]
    ring
  rw [e, e, e]
  apply Nat.eq_of_testBit_eq
  intro i
  simp only [Nat.testBit_shiftLeft, Nat.testBit_xor]
  by_cases hi : 1 ≤ i
  · simp [hi]
  · simp [hi]

theorem even_xor_one {x : ℕ} (h : x % 2 = 0) : x ^^^ 1 = x + 1 := by
  apply Nat.eq_of_testBit_eq
  intro i
  cases i with
  | zero =>
    rw [Nat.testBit_xor]
    simp only [Nat.testBit_zero]
    have h1 : (x + 1) % 2 = 1 := by omega
    simp [h, h1]
  | succ j =>
    rw [Nat.testBit_xor]
    simp only [Nat.testBit_add_one]
    have h1 : (1 : ℕ) / 2 = 0 := by norm_num
    have h2 : (x + 1) / 2 = x / 2 := by omega
    rw [h1, h2, Nat.zero_testBit]
    simp

theorem xor_even_mod_two (x y : ℕ) (hx : x % 2 = 0) (hy : y % 2 = 0) : (x ^^^ y) % 2 = 0 := by
  rw [Nat.mod_two_eq_zero_iff_testBit_zero, Nat.testBit_xor]
  simp only [Nat.testBit_zero]
  have hx1 : ¬ x % 2 = 1 := by omega
  have hy1 : ¬ y % 2 = 1 := by omega
  simp [hx1, hy1]

theorem xor_add_bit {r s b : ℕ} (hb : b ≤ 1) :
    (2 * r ^^^ 2 * s) + b = (2 * r + b) ^^^ 2 * s := by
  interval_cases b
  · simp
  · have hr : 2 * r % 2 = 0 := by omega
    have hs : 2 * s % 2 = 0 := by omega
    rw [← even_xor_one (xor_even_mod_two _ _ hr hs), ← even_xor_one hr,
      Nat.xor_assoc, Nat.xor_comm (2 * s) 1, ← Nat.xor_assoc]

/-! ### The division step as one ideal polynomial reduction -/

theorem pow_msb_split {w : ℕ} (hw : 1 ≤ w) : 2 ^ w = 2 * 2 ^ (w - 1) := by
  conv_lhs => rw [← Nat.sub_add_cancel hw]
  rw [pow_succ]
  ring

theorem crcStep_eq (w p : ℕ) (hw : 1 ≤ w) (div b : ℕ) (hdiv : div < 2 ^ w) (hb : b ≤ 1) :
    crcStep w p div b = polyReduce w p (2 * div + b) := by
  have hsplit : 2 ^ w = 2 * 2 ^ (w - 1) := pow_msb_split hw
  unfold crcStep polyReduce
  by_cases hmsb : 2 ^ (w - 1) ≤ div
  · rw [if_pos hmsb, if_pos (by omega)]
    have h1 : (div - 2 ^ (w - 1)) * 2 = 2 * div - 2 ^ w := by omega
    have e1 : (2 * div - 2 ^ w) % 2 ^ w = 2 * div - 2 ^ w := Nat.mod_eq_of_lt (by omega)
    have e2 : (2 * div - 2 ^ w + b) % 2 ^ w = 2 * div - 2 ^ w + b := Nat.mod_eq_of_lt (by omega)
    rw [h1, e1, e2]
    congr 1
    omega
  · rw [if_neg hmsb, if_neg (by omega)]
    have e1 : div * 2 % 2 ^ w = div * 2 := Nat.mod_eq_of_lt (by omega)
    have e2 : (div * 2 + b) % 2 ^ w = div * 2 + b := Nat.mod_eq_of_lt (by omega)
    rw [e1, e2, Nat.xor_zero]
    omega

theorem crcStep_lt (w p : ℕ) (hw : 1 ≤ w) (hp : p < 2 ^ w) (div b : ℕ)
    (hdiv : div < 2 ^ w) (hb : b ≤ 1) : crcStep w p div b < 2 ^ w := by
  rw [crcStep_eq w p hw div b hdiv hb]
  have hsplit : 2 ^ w = 2 * 2 ^ (w - 1) := pow_msb_split hw
  unfold polyReduce
  by_cases h : 2 ^ w ≤ 2 * div + b
  · rw [if_pos h]
    exact Nat.xor_lt_two_pow (by omega) hp
  · rw [if_neg h]
    omega

theorem polyReduce_xor (w p : ℕ) {x y : ℕ}
    (hx : x < 2 ^ (w + 1)) (hy : y < 2 ^ (w + 1)) :
    polyReduce w p (x ^^^ y) = polyReduce w p x ^^^ polyReduce w p y := by
  have hp2 : 2 ^ (w + 1) = 2 * 2 ^ w := pow_succ' 2 w
  unfold polyReduce
  by_cases h1 : 2 ^ w ≤ x
  · have ex : x = 2 ^ w ^^^ (x - 2 ^ w) := by rw [two_pow_xor_eq_add (by omega)]; omega
    by_cases h2 : 2 ^ w ≤ y
    · have ey : y = 2 ^ w ^^^ (y - 2 ^ w) := by rw [two_pow_xor_eq_add (by omega)]; omega
      have hxy : x ^^^ y = (x - 2 ^ w) ^^^ (y - 2 ^ w) := by
        conv_lhs => rw [ex, ey]
        exact xor_pair_cancel _ _ _
      have hlt : (x - 2 ^ w) ^^^ (y - 2 ^ w) < 2 ^ w :=
        Nat.xor_lt_two_pow (by omega) (by omega)
      rw [if_pos h1, if_pos h2, hxy, if_neg (by omega)]
      exact (xor_pair_cancel_right _ _ p).symm
    · have hxy : x ^^^ y = 2 ^ w ^^^ ((x - 2 ^ w) ^^^ y) := by
        conv_lhs => rw [ex]
        rw [Nat.xor_assoc]
      have hlt : (x - 2 ^ w) ^^^ y < 2 ^ w := Nat.xor_lt_two_pow (by omega) (by omega)
      have hge : 2 ^ w ≤ x ^^^ y := by
        rw [hxy, two_pow_xor_eq_add hlt]; omega
      have hsub : (x ^^^ y) - 2 ^ w = (x - 2 ^ w) ^^^ y := by
        rw [hxy, two_pow_xor_eq_add hlt]; omega
      rw [if_pos h1, if_neg h2, if_pos hge, hsub, Nat.xor_assoc, Nat.xor_comm y p,
        ← Nat.xor_assoc]
  · by_cases h2 : 2 ^ w ≤ y
    · have ey : y = 2 ^ w ^^^ (y - 2 ^ w) := by rw [two_pow_xor_eq_add (by omega)]; omega
      have hxy : x ^^^ y = 2 ^ w ^^^ (x ^^^ (y - 2 ^ w)) := by
        conv_lhs => rw [ey]
        rw [Nat.xor_comm x _, Nat.xor_assoc, Nat.xor_comm (y - 2 ^ w) x]
      have hlt : x ^^^ (y - 2 ^ w) < 2 ^ w := Nat.xor_lt_two_pow (by omega) (by omega)
      have hge : 2 ^ w ≤ x ^^^ y := by
        rw [hxy, two_pow_xor_eq_add hlt]; omega
      have hsub : (x ^^^ y) - 2 ^ w = x ^^^ (y - 2 ^ w) := by
        rw [hxy, two_pow_xor_eq_add hlt]; omega
      rw [if_neg h1, if_pos h2, if_pos hge, hsub, ← Nat.xor_assoc]
    · have hlt : x ^^^ y < 2 ^ w := Nat.xor_lt_two_pow (by omega) (by omega)
      rw [if_neg h1, if_neg h2, if_neg (by omega)]

/-! ### Bit-list and fold helper lemmas -/

theorem bits01_append {l1 l2 : List ℕ} (h1 : bits01 l1) (h2 : bits01 l2) :
    bits01 (l1 ++ l2) := by
  intro b hb
  rcases List.mem_append.mp hb with h | h
  · exact h1 b h
  · exact h2 b h

theorem bits01_replicate_zero (n : ℕ) : bits01 (List.replicate n 0) := by
  intro b hb
  exact Or.inl (List.eq_of_mem_replicate hb)

theorem bits01_cons_head {b : ℕ} {l : List ℕ} (h : bits01 (b :: l)) : b ≤ 1 := by
  rcases h b (by simp) with h1 | h1 <;> omega

theorem bits01_cons_tail {b : ℕ} {l : List ℕ} (h : bits01 (b :: l)) : bits01 l := by
  intro x hx
  exact h x (by simp [hx])

theorem getD_drop (l : List ℕ) : ∀ (w i : ℕ), (l.drop w).getD i 0 = l.getD (w + i) 0 := by
  induction l with
  | nil => intro w i; simp
  | cons a t ih =>
    intro w i
    cases w with
    | zero => simp
    | succ v =>
      rw [List.drop_succ_cons, ih v i, show v + 1 + i = (v + i) + 1 by omega,
        List.getD_cons_succ]

theorem valMSB_foldl (l : List ℕ) :
    ∀ a : ℕ, l.foldl (fun a b => 2 * a + b) a = a * 2 ^ l.length + valMSB l := by
  induction l with
  | nil => intro a; simp [valMSB]
  | cons b t ih =>
    intro a
    simp only [List.foldl_cons, List.length_cons]
    rw [ih (2 * a + b)]
    conv_rhs => rw [valMSB, List.foldl_cons, ih (2 * 0 + b)]
    ring

theorem valMSB_cons (b : ℕ) (l : List ℕ) :
    valMSB (b :: l) = b * 2 ^ l.length + valMSB l := by
  rw [valMSB, List.foldl_cons, valMSB_foldl]
  ring_nf

theorem valMSB_lt {l : List ℕ} (h : bits01 l) : valMSB l < 2 ^ l.length := by
  induction l with
  | nil => simp [valMSB]
  | cons b t ih =>
    have hb := bits01_cons_head h
    have ht := ih (bits01_cons_tail h)
    rw [valMSB_cons, List.length_cons, pow_succ]
    nlinarith

theorem valMSB_replicate_zero (n : ℕ) : valMSB (List.replicate n 0) = 0 := by
  induction n with
  | zero => rfl
  | succ m ih => rw [List.replicate_succ, valMSB_cons, ih]; ring

theorem length_toBitsMSB (w : ℕ) : ∀ c : ℕ, (toBitsMSB w c).length = w := by
  induction w with
  | zero => intro c; rfl
  | succ v ih => intro c; rw [toBitsMSB, List.length_cons, ih]

theorem bits01_toBitsMSB (w : ℕ) : ∀ c : ℕ, c < 2 ^ w → bits01 (toBitsMSB w c) := by
  induction w with
  | zero => intro c _ b hb; simp [toBitsMSB] at hb
  | succ v ih =>
    intro c hc b hb
    rw [toBitsMSB] at hb
    rcases List.mem_cons.mp hb with h | h
    · have hdiv : c / 2 ^ v < 2 := by
        rw [Nat.div_lt_iff_lt_mul (Nat.two_pow_pos v)]
        calc c < 2 ^ (v + 1) := hc
          _ = 2 * 2 ^ v := pow_succ' 2 v
      subst h
      generalize c / 2 ^ v = d at hdiv ⊢
      omega
    · exact ih (c % 2 ^ v) (Nat.mod_lt _ (Nat.two_pow_pos v)) b h

theorem valMSB_toBitsMSB (w : ℕ) : ∀ c : ℕ, c < 2 ^ w → valMSB (toBitsMSB w c) = c := by
  induction w with
  | zero =>
    intro c hc
    interval_cases c
    rfl
  | succ v ih =>
    intro c hc
    rw [toBitsMSB, valMSB_cons, length_toBitsMSB, ih (c % 2 ^ v) (Nat.mod_lt _ (Nat.two_pow_pos v))]
    rw [mul_comm]
    exact Nat.div_add_mod c (2 ^ v)

/-! ### The division fold: range bound, seed absorption, XOR linearity -/

theorem crcFold_cons (w p r b : ℕ) (l : List ℕ) :
    crcFold w p r (b :: l) = crcFold w p (crcStep w p r b) l := rfl

theorem crcFold_append (w p r : ℕ) (l1 l2 : List ℕ) :
    crcFold w p r (l1 ++ l2) = crcFold w p (crcFold w p r l1) l2 :=
  List.foldl_append _ _ _ _

theorem crcFold_lt (w p : ℕ) (hw : 1 ≤ w) (hp : p < 2 ^ w) :
    ∀ l : List ℕ, bits01 l → ∀ r, r < 2 ^ w → crcFold w p r l < 2 ^ w := by
  intro l
  induction l with
  | nil => intro _ r hr; exact hr
  | cons b t ih =>
    intro hb r hr
    rw [crcFold_cons]
    exact ih (bits01_cons_tail hb) _ (crcStep_lt w p hw hp r b hr (bits01_cons_head hb))

theorem crcFold_small (w p : ℕ) :
    ∀ l : List ℕ, bits01 l → l.length ≤ w → ∀ r, r < 2 ^ (w - l.length) →
      crcFold w p r l = List.foldl (fun a b => 2 * a + b) r l := by
  intro l
  induction l with
  | nil => intro _ _ r _; rfl
  | cons b t ih =>
    intro hb hlen r hr
    have hw : 1 ≤ w := by simp only [List.length_cons] at hlen; omega
    have hbb : b ≤ 1 := bits01_cons_head hb
    have hkey : w - t.length = (w - (b :: t).length) + 1 := by
      simp only [List.length_cons] at hlen ⊢
      omega
    have hpow : 2 ^ (w - t.length) = 2 * 2 ^ (w - (b :: t).length) := by
      rw [hkey, pow_succ]; ring
    have hr2 : 2 * r + b < 2 ^ (w - t.length) := by omega
    have hle : 2 ^ (w - t.length) ≤ 2 ^ w := Nat.pow_le_pow_right (by omega) (by omega)
    have hrw : r < 2 ^ w := by omega
    have hstep : crcStep w p r b = 2 * r + b := by
      rw [crcStep_eq w p hw r b hrw hbb]
      unfold polyReduce
      rw [if_neg (by omega)]
    rw [crcFold_cons, hstep, List.foldl_cons]
    exact ih (bits01_cons_tail hb) (by simp only [List.length_cons] at hlen; omega) _ hr2

theorem crcFold_xor (w p : ℕ) (hw : 1 ≤ w) (hp : p < 2 ^ w) :
    ∀ l : List ℕ, bits01 l → ∀ r s : ℕ, r < 2 ^ w → s < 2 ^ w →
      crcFold w p (r ^^^ s) l =
        crcFold w p r l ^^^ crcFold w p s (List.replicate l.length 0) := by
  intro l
  induction l with
  | nil => intro _ r s _ _; rfl
  | cons b t ih =>
    intro hb r s hr hs
    have hbb : b ≤ 1 := bits01_cons_head hb
    have hpow : 2 ^ (w + 1) = 2 * 2 ^ w := pow_succ' 2 w
    have hstep : crcStep w p (r ^^^ s) b = crcStep w p r b ^^^ crcStep w p s 0 := by
      rw [crcStep_eq w p hw _ b (Nat.xor_lt_two_pow hr hs) hbb,
        crcStep_eq w p hw r b hr hbb, crcStep_eq w p hw s 0 hs (by omega),
        two_mul_xor, xor_add_bit hbb, add_zero]
      exact polyReduce_xor w p (by omega) (by omega)
    rw [List.length_cons, List.replicate_succ, crcFold_cons, crcFold_cons, crcFold_cons, hstep]
    exact ih (bits01_cons_tail hb) _ _ (crcStep_lt w p hw hp r b hr hbb)
      (crcStep_lt w p hw hp s 0 hs (by omega))

/-! ### `bin_to_int` reads the leading `w` bits -/

theorem binToInt_shift (w : ℕ) (l : List ℕ) :
    ∀ (ys : List ℕ) (a : ℕ),
      ys.foldl (fun intFmt i => if l.getD i 0 = 1 then intFmt + 2 ^ (w - 1 - i) else intFmt) a =
        a + ys.foldl
          (fun intFmt i => if l.getD i 0 = 1 then intFmt + 2 ^ (w - 1 - i) else intFmt) 0 := by
  intro ys
  induction ys with
  | nil => intro a; simp
  | cons j t ih =>
    intro a
    simp only [List.foldl_cons]
    rw [ih (if l.getD j 0 = 1 then a + 2 ^ (w - 1 - j) else a),
      ih (if l.getD j 0 = 1 then 0 + 2 ^ (w - 1 - j) else 0)]
    by_cases h : l.getD j 0 = 1
    · rw [if_pos h, if_pos h]
      omega
    · rw [if_neg h, if_neg h]
      omega

theorem binToInt_cons (v b : ℕ) (l : List ℕ) :
    binToInt (v + 1) (b :: l) = (if b = 1 then 2 ^ v else 0) + binToInt v l := by
  unfold binToInt
  rw [List.range_succ_eq_map, List.foldl_cons, List.foldl_map]
  have hext : ∀ (a : ℕ), ∀ i ∈ List.range v,
      (if (b :: l).getD (Nat.succ i) 0 = 1 then a + 2 ^ (v + 1 - 1 - Nat.succ i) else a) =
        (if l.getD i 0 = 1 then a + 2 ^ (v - 1 - i) else a) := by
    intro a i _
    rw [List.getD_cons_succ, show v + 1 - 1 - Nat.succ i = v - 1 - i from by omega]
  rw [List.foldl_ext _ _ _ hext, binToInt_shift v l]
  congr 1
  show (if (b :: l).getD 0 0 = 1 then 0 + 2 ^ (v + 1 - 1 - 0) else 0) = _
  rw [List.getD_cons_zero]
  by_cases h : b = 1 <;> simp [h]

theorem binToInt_eq_valMSB : ∀ (w : ℕ) (l : List ℕ), bits01 l → w ≤ l.length →
    binToInt w l = valMSB (l.take w) := by
  intro w
  induction w with
  | zero => intro l _ _; rfl
  | succ v ih =>
    intro l hb hlen
    cases l with
    | nil => simp at hlen
    | cons b t =>
      rw [binToInt_cons, List.take_succ_cons, valMSB_cons,
        ih t (bits01_cons_tail hb) (by simp only [List.length_cons] at hlen; omega)]
      have hlen2 : (t.take v).length = v := by
        rw [List.length_take]
        simp only [List.length_cons] at hlen
        omega
      rw [hlen2]
      rcases hb b (by simp) with h | h <;> subst h <;> simp

/-! ### `build_crc` as a fold over the whole padded dividend from register `0` -/

theorem foldl_range_getD (w p : ℕ) (xs : List ℕ) :
    ∀ n : ℕ, n ≤ xs.length → ∀ r : ℕ,
      (List.range n).foldl (fun div i => crcStep w p div (xs.getD i 0)) r =
        crcFold w p r (xs.take n) := by
  intro n
  induction n with
  | zero => intro _ r; rfl
  | succ m ih =>
    intro hm r
    have hmlt : m < xs.length := by omega
    rw [List.range_succ, List.foldl_append, ih (by omega) r, List.take_succ,
      List.getElem?_eq_getElem hmlt]
    show crcStep w p (crcFold w p r (xs.take m)) (xs.getD m 0) =
      crcFold w p r (xs.take m ++ [xs[m]])
    rw [crcFold_append]
    show crcStep w p (crcFold w p r (xs.take m)) (xs.getD m 0) =
      crcStep w p (crcFold w p r (xs.take m)) xs[m]
    congr 1
    rw [List.getD_eq_getElem?_getD, List.getElem?_eq_getElem hmlt]
    rfl

theorem buildCrc_eq_seeded (w p : ℕ) (data : List ℕ) :
    buildCrc w p data =
      crcFold w p (binToInt w (data ++ List.replicate w 0))
        ((data ++ List.replicate w 0).drop w) := by
  unfold buildCrc
  show (List.range data.length).foldl
      (fun div i => crcStep w p div ((data ++ List.replicate w 0).getD (w + i) 0))
      (binToInt w (data ++ List.replicate w 0)) =
    crcFold w p (binToInt w (data ++ List.replicate w 0))
      ((data ++ List.replicate w 0).drop w)
  have hext : ∀ (a : ℕ), ∀ i ∈ List.range data.length,
      crcStep w p a ((data ++ List.replicate w 0).getD (w + i) 0) =
        crcStep w p a (((data ++ List.replicate w 0).drop w).getD i 0) := by
    intro a i _
    rw [getD_drop]
  rw [List.foldl_ext _ _ _ hext,
    foldl_range_getD w p _ data.length
      (by rw [List.length_drop, List.length_append, List.length_replicate]; omega) _]
  congr 1
  rw [List.take_of_length_le
    (by rw [List.length_drop, List.length_append, List.length_replicate]; omega)]

theorem buildCrc_eq_fold_zero (w p : ℕ) (data : List ℕ) (hd : bits01 data) :
    buildCrc w p data = crcFold w p 0 (data ++ List.replicate w 0) := by
  rw [buildCrc_eq_seeded]
  have hpad : bits01 (data ++ List.replicate w 0) :=
    bits01_append hd (bits01_replicate_zero w)
  have hlen : w ≤ (data ++ List.replicate w 0).length := by
    rw [List.length_append, List.length_replicate]; omega
  have htake : bits01 ((data ++ List.replicate w 0).take w) := by
    intro b hb
    exact hpad b (List.mem_of_mem_take hb)
  have htlen : ((data ++ List.replicate w 0).take w).length = w := by
    rw [List.length_take]; omega
  rw [binToInt_eq_valMSB w _ hpad hlen]
  conv_rhs => rw [← List.take_append_drop w (data ++ List.replicate w 0)]
  rw [crcFold_append]
  congr 1
  rw [crcFold_small w p _ htake (le_of_eq htlen) 0 (by rw [htlen, Nat.sub_self]; omega)]
  rfl

/-! ### `combine_crc` emits the checksum most-significant-bit first -/

theorem combineLoop_eq_toBitsMSB (w : ℕ) :
    ∀ i d : ℕ, i ≤ w → d < 2 ^ i → combineLoop w i (d * 2 ^ (w - i)) = toBitsMSB i d := by
  intro i
  induction i with
  | zero => intro d _ _; rfl
  | succ j ih =>
    intro d hj hd
    rw [combineLoop, toBitsMSB]
    have hhead : d * 2 ^ (w - (j + 1)) / 2 ^ (w - 1) = d / 2 ^ j := by
      rw [show w - 1 = (w - (j + 1)) + j from by omega, pow_add,
        ← Nat.div_div_eq_div_mul, Nat.mul_div_cancel _ (Nat.two_pow_pos _)]
    have htail : d * 2 ^ (w - (j + 1)) * 2 % 2 ^ w = (d % 2 ^ j) * 2 ^ (w - j) := by
      rw [mul_assoc, ← pow_succ, show w - (j + 1) + 1 = w - j from by omega]
      have hpow : (2 : ℕ) ^ j * 2 ^ (w - j) = 2 ^ w := by
        rw [← pow_add]
        congr 1
        omega
      have hdecomp : d * 2 ^ (w - j) = (d / 2 ^ j) * 2 ^ w + (d % 2 ^ j) * 2 ^ (w - j) := by
        calc d * 2 ^ (w - j) = (2 ^ j * (d / 2 ^ j) + d % 2 ^ j) * 2 ^ (w - j) := by
              rw [Nat.div_add_mod]
          _ = (d / 2 ^ j) * (2 ^ j * 2 ^ (w - j)) + (d % 2 ^ j) * 2 ^ (w - j) := by ring
          _ = (d / 2 ^ j) * 2 ^ w + (d % 2 ^ j) * 2 ^ (w - j) := by rw [hpow]
      have hsmall : (d % 2 ^ j) * 2 ^ (w - j) < 2 ^ w := by
        calc (d % 2 ^ j) * 2 ^ (w - j)
            < 2 ^ j * 2 ^ (w - j) :=
              Nat.mul_lt_mul_of_lt_of_le (Nat.mod_lt _ (Nat.two_pow_pos _)) le_rfl
                (Nat.two_pow_pos _)
          _ = 2 ^ w := hpow
      rw [hdecomp, add_comm, Nat.add_mul_mod_self_right, Nat.mod_eq_of_lt hsmall]
    rw [hhead, htail, ih (d % 2 ^ j) (by omega) (Nat.mod_lt _ (Nat.two_pow_pos _))]

theorem combineCrc_eq (w : ℕ) (data : List ℕ) (c : ℕ) (hc : c < 2 ^ w) :
    combineCrc w data c = data ++ toBitsMSB w c := by
  unfold combineCrc
  congr 1
  have := combineLoop_eq_toBitsMSB w w c le_rfl hc
  rw [Nat.sub_self, pow_zero, mul_one] at this
  exact this

/-! ### CRC of data with its own checksum appended is zero -/

theorem crc_append_zero (w p : ℕ) (hw : 1 ≤ w) (hp : p < 2 ^ w) (data : List ℕ)
    (hd : bits01 data) :
    buildCrc w p (combineCrc w data (buildCrc w p data)) = 0 := by
  set c := buildCrc w p data with hcdef
  have hzero : bits01 (List.replicate w 0) := bits01_replicate_zero w
  have hpadded : bits01 (data ++ List.replicate w 0) := bits01_append hd hzero
  have hc : c < 2 ^ w := by
    rw [hcdef, buildCrc_eq_fold_zero w p data hd]
    exact crcFold_lt w p hw hp _ hpadded 0 (Nat.two_pow_pos w)
  have hbitsc : bits01 (toBitsMSB w c) := bits01_toBitsMSB w c hc
  rw [combineCrc_eq w data c hc]
  have hbits2 : bits01 (data ++ toBitsMSB w c) := bits01_append hd hbitsc
  rw [buildCrc_eq_fold_zero w p _ hbits2, List.append_assoc, crcFold_append, crcFold_append]
  have hd1lt : crcFold w p 0 data < 2 ^ w :=
    crcFold_lt w p hw hp data hd 0 (Nat.two_pow_pos w)
  have hcfold : c = crcFold w p (crcFold w p 0 data) (List.replicate w 0) := by
    rw [hcdef, buildCrc_eq_fold_zero w p data hd, crcFold_append]
  have hmid : crcFold w p (crcFold w p 0 data) (toBitsMSB w c) = 0 := by
    have h0 := crcFold_xor w p hw hp (toBitsMSB w c) hbitsc 0 (crcFold w p 0 data)
      (Nat.two_pow_pos w) hd1lt
    rw [Nat.zero_xor, length_toBitsMSB] at h0
    rw [h0]
    have hsmall : crcFold w p 0 (toBitsMSB w c) = valMSB (toBitsMSB w c) := by
      rw [crcFold_small w p _ hbitsc (le_of_eq (length_toBitsMSB w c)) 0
        (by rw [length_toBitsMSB, Nat.sub_self]; omega)]
      rfl
    rw [hsmall, valMSB_toBitsMSB w c hc, ← hcfold]
    exact Nat.xor_self c
  rw [hmid]
  rw [crcFold_small w p _ hzero (by rw [List.length_replicate]) 0
    (by rw [List.length_replicate, Nat.sub_self]; omega)]
  exact valMSB_replicate_zero w

/-- C1: for every CRC configuration with width 8 or 16, polynomial within the
width, and every sequence of single bits, building the checksum, appending its
bits most-significant-bit first (`combine_crc`) and building the checksum of
the result yields the zero remainder. -/
theorem c1_crc_of_data_with_appended_checksum_is_zero (w p : ℕ) (data : List ℕ)
    (hw : w = 8 ∨ w = 16) (hp : p < 2 ^ w) (hd : bits01 data) :
    buildCrc w p (combineCrc w data (buildCrc w p data)) = 0 :=
  crc_append_zero w p (by rcases hw with h | h <;> omega) hp data hd

theorem c1_crc_of_data_with_appended_checksum_is_zero_witness :
    ((8 : ℕ) = 8 ∨ (8 : ℕ) = 16) ∧ 7 < 2 ^ 8 ∧ bits01 [1, 0, 1, 1, 0, 0, 1] ∧
      buildCrc 8 7 (combineCrc 8 [1, 0, 1, 1, 0, 0, 1] (buildCrc 8 7 [1, 0, 1, 1, 0, 0, 1])) = 0 :=
  ⟨Or.inl rfl, by decide, by decide,
    c1_crc_of_data_with_appended_checksum_is_zero 8 7 [1, 0, 1, 1, 0, 0, 1]
      (Or.inl rfl) (by decide) (by decide)⟩

theorem riceBinLoop_eq_toBitsMSB : ∀ i bin : ℕ, riceBinLoop i bin = toBitsMSB i bin := by
  intro i
  induction i with
  | zero => intro bin; rfl
  | succ j ih =>
    intro bin
    rw [riceBinLoop, toBitsMSB, Nat.one_shiftLeft, ih]
    congr 2
    rw [mul_comm]
    have h1 := Nat.div_add_mod bin (2 ^ j)
    omega

theorem riceEncodeWith_pow_eq (k num : ℕ) :
    riceEncodeWith (2 ^ k) k num =
      List.replicate (num >>> k) 1 ++ [0] ++ toBitsMSB k (num % 2 ^ k) := by
  unfold riceEncodeWith
  rw [riceBinLoop_eq_toBitsMSB, Nat.and_pow_two_sub_one_eq_mod]

theorem takeWhile_ones (u : ℕ) (rest : List ℕ) :
    ((List.replicate u 1 ++ 0 :: rest).takeWhile (fun b => b == 1)).length = u := by
  induction u with
  | zero => simp
  | succ v ih =>
    rw [List.replicate_succ, List.cons_append, List.takeWhile_cons_of_pos (by simp),
      List.length_cons, ih]

theorem drop_past_stop (u : ℕ) (rest : List ℕ) :
    (List.replicate u 1 ++ 0 :: rest).drop (u + 1) = rest := by
  rw [show List.replicate u 1 ++ 0 :: rest = (List.replicate u 1 ++ [0]) ++ rest from by simp]
  exact List.drop_left' (by simp)

theorem decode_rice_encodeWith (num k : ℕ) :
    decode_rice (riceEncodeWith (2 ^ k) k num) k = num := by
  rw [riceEncodeWith_pow_eq]
  unfold decode_rice
  rw [show List.replicate (num >>> k) 1 ++ [0] ++ toBitsMSB k (num % 2 ^ k) =
      List.replicate (num >>> k) 1 ++ 0 :: toBitsMSB k (num % 2 ^ k) from by simp]
  rw [takeWhile_ones, drop_past_stop,
    List.take_of_length_le (le_of_eq (length_toBitsMSB k (num % 2 ^ k))),
    valMSB_toBitsMSB k _ (Nat.mod_lt _ (Nat.two_pow_pos k)),
    Nat.shiftRight_eq_div_pow, mul_comm]
  exact Nat.div_add_mod num (2 ^ k)

theorem length_riceEncodeWith (num k : ℕ) :
    (riceEncodeWith (2 ^ k) k num).length = (num >>> k) + 1 + k := by
  rw [riceEncodeWith_pow_eq]
  simp [length_toBitsMSB]
  omega

/-- C3: for every `u64` value and every Rice parameter `k`, decoding the Rice
encoding reproduces the value; the encoding is exactly `value >> k` one-bits,
one zero stop bit, then the `k` low bits most-significant first, of total
length `(value >> k) + 1 + k`.  The source hard-codes `param = 16`, `k = 4`
(`RiceEncoder.encode = riceEncodeWith 16 4`), so the same statements are
instantiated for it at `k = 4`. -/
theorem c3_rice_roundtrip_and_length (num k : ℕ) (_hnum : num < 2 ^ 64) :
    decode_rice (riceEncodeWith (2 ^ k) k num) k = num ∧
      (riceEncodeWith (2 ^ k) k num).length = (num >>> k) + 1 + k ∧
      riceEncodeWith (2 ^ k) k num =
        List.replicate (num >>> k) 1 ++ [0] ++ toBitsMSB k (num % 2 ^ k) ∧
      decode_rice (RiceEncoder.encode num) 4 = num ∧
      (RiceEncoder.encode num).length = (num >>> 4) + 1 + 4 := by
  refine ⟨decode_rice_encodeWith num k, length_riceEncodeWith num k,
    riceEncodeWith_pow_eq k num, ?_, ?_⟩
  · show decode_rice (riceEncodeWith 16 4 num) 4 = num
    have h16 : (16 : ℕ) = 2 ^ 4 := by norm_num
    rw [h16]
    exact decode_rice_encodeWith num 4
  · show (riceEncodeWith 16 4 num).length = (num >>> 4) + 1 + 4
    have h16 : (16 : ℕ) = 2 ^ 4 := by norm_num
    rw [h16]
    exact length_riceEncodeWith num 4

theorem c3_rice_roundtrip_and_length_witness :
    1000 < 2 ^ 64 ∧ decode_rice (RiceEncoder.encode 1000) 4 = 1000 ∧
      (RiceEncoder.encode 1000).length = (1000 >>> 4) + 1 + 4 :=
  ⟨by decide, (c3_rice_roundtrip_and_length 1000 4 (by decide)).2.2.2.1,
    (c3_rice_roundtrip_and_length 1000 4 (by decide)).2.2.2.2⟩

theorem int_to_bin_step (n : ℕ) (h : n ≠ 0) :
    int_to_bin n = (n - n / 2 * 2) :: int_to_bin (n / 2) := by
  rw [int_to_bin.eq_def, dif_neg h]

theorem int_to_bin_zero : int_to_bin 0 = [] := by
  rw [int_to_bin.eq_def, dif_pos rfl]

theorem int_to_bin_pow (k : ℕ) : int_to_bin (2 ^ k) = List.replicate k 0 ++ [1] := by
  induction k with
  | zero =>
    rw [pow_zero, int_to_bin_step 1 one_ne_zero,
      show (1 : ℕ) - 1 / 2 * 2 = 1 from by norm_num, show (1 : ℕ) / 2 = 0 from by norm_num,
      int_to_bin_zero]
    rfl
  | succ j ih =>
    have hne : (2 : ℕ) ^ (j + 1) ≠ 0 := by positivity
    have h1 : 2 ^ (j + 1) - 2 ^ (j + 1) / 2 * 2 = 0 := by
      rw [pow_succ]
      omega
    have h2 : 2 ^ (j + 1) / 2 = 2 ^ j := by
      rw [pow_succ]
      omega
    rw [int_to_bin_step _ hne, h1, h2, ih, List.replicate_succ, List.cons_append]

/-- C2 evidence: the 1-byte template of the source has only 7 entries (one
slot short of the `0xxxxxxx` byte of the table), so `encode 1` is a 7-bit
sequence — not byte-aligned — and a value with exactly 7 significant bits
exhausts the 6 open slots and panics in the slot scan (embedded as `none`). -/
theorem c2_encode_one_byte_template_defect :
    Utf8Encoder.encode 1 = some [0, 0, 0, 0, 0, 0, 1] ∧
      (Utf8Encoder.encode 1).map List.length = some 7 ∧ ¬ (7 % 8 = 0) ∧
      Utf8Encoder.encode 64 = none := by
  have h1 : int_to_bin 1 = [1] := by
    have := int_to_bin_pow 0
    simpa using this
  have h64 : int_to_bin 64 = List.replicate 6 0 ++ [1] := by
    have := int_to_bin_pow 6
    norm_num at this
    exact this
  refine ⟨?_, ?_, by decide, ?_⟩
  · unfold Utf8Encoder.encode
    rw [h1]
    decide
  · unfold Utf8Encoder.encode
    rw [h1]
    decide
  · unfold Utf8Encoder.encode
    rw [h64]
    decide

/-- C5 evidence: a value with 37 significant bits selects the 7-byte template,
whose 36 open slots are exhausted, and the slot scan panics (`none`); a value
with more than 40 significant bits selects no template at all and
`bin_temp.len() - 1` underflows (`none`).  No out-of-range error value is
produced: the return type of the source function carries no error case. -/
theorem c5_encode_over_36_bits_panics :
    Utf8Encoder.encode (2 ^ 36) = none ∧ Utf8Encoder.encode (2 ^ 41) = none := by
  constructor
  · unfold Utf8Encoder.encode
    rw [int_to_bin_pow 36]
    decide
  · unfold Utf8Encoder.encode
    rw [int_to_bin_pow 41]
    decide

/-! ### Pull-level lemmas for the data chunk and its windows -/

theorem dataChunkNext_some (sz : ℕ) (fmt : PCMWaveFormatChunk) (data : List ℕ)
    (hbs : fmt.bps / 8 ≠ 0) (hlen : block_align fmt ≤ data.length) :
    dataChunkNext ⟨sz, fmt, data⟩ =
      some ((chunksExact (fmt.bps / 8) (data.take (block_align fmt))).map
          (decodeSample fmt.num_channels),
        ⟨sz, fmt, data.drop (block_align fmt)⟩) := by
  have h1 : ¬ data.length < block_align fmt := Nat.not_lt.mpr hlen
  simp [dataChunkNext, h1, hbs]

theorem length_pulledGroups (fmt : PCMWaveFormatChunk) :
    ∀ (n : ℕ) (data : List ℕ), (pulledGroups fmt n data).length = n := by
  intro n
  induction n with
  | zero => intro data; rfl
  | succ m ih => intro data; rw [pulledGroups, List.length_cons, ih]

theorem windowNextLoop_full (sz : ℕ) (fmt : PCMWaveFormatChunk) (hbs : fmt.bps / 8 ≠ 0) :
    ∀ (n : ℕ) (data : List ℕ) (buffer : List (List (Option ℤ))),
      n * block_align fmt ≤ data.length →
      windowNextLoop n ⟨sz, fmt, data⟩ buffer =
        (some (buffer ++ pulledGroups fmt n data),
          ⟨sz, fmt, data.drop (n * block_align fmt)⟩) := by
  intro n
  induction n with
  | zero => intro data buffer _; simp [windowNextLoop, pulledGroups]
  | succ m ih =>
    intro data buffer h
    have hsucc : (m + 1) * block_align fmt = m * block_align fmt + block_align fmt :=
      Nat.succ_mul m (block_align fmt)
    have hlen : block_align fmt ≤ data.length := by omega
    simp only [windowNextLoop, dataChunkNext_some sz fmt data hbs hlen]
    rw [ih (data.drop (block_align fmt)) _ (by simp only [List.length_drop]; omega)]
    rw [pulledGroups, List.drop_drop,
      show block_align fmt + m * block_align fmt = (m + 1) * block_align fmt from by omega]
    simp

theorem block_align_mono8 (r : ℕ) : block_align ⟨1, r, 8⟩ = 1 := by
  norm_num [block_align]

theorem dataChunkNext_mono8_cons (sz r b : ℕ) (rest : List ℕ) :
    dataChunkNext ⟨sz, ⟨1, r, 8⟩, b :: rest⟩ =
      some ([some (b : ℤ)], ⟨sz, ⟨1, r, 8⟩, rest⟩) := by
  rw [dataChunkNext_some sz ⟨1, r, 8⟩ (b :: rest) (by norm_num)
    (by rw [block_align_mono8]; simp)]
  rw [block_align_mono8]
  norm_num [chunksExact]
  rfl

theorem dataChunkNext_mono8_nil (sz r : ℕ) :
    dataChunkNext ⟨sz, ⟨1, r, 8⟩, []⟩ = none := by
  have h : ([] : List ℕ).length < block_align ⟨1, r, 8⟩ := by
    rw [block_align_mono8]
    simp
  unfold dataChunkNext
  exact if_pos h

theorem windowNextLoop_mono8_full (sz r : ℕ) :
    ∀ (n : ℕ) (data : List ℕ) (buffer : List (List (Option ℤ))), n ≤ data.length →
      windowNextLoop n ⟨sz, ⟨1, r, 8⟩, data⟩ buffer =
        (some (buffer ++ (data.take n).map (fun b : ℕ => [some (b : ℤ)])),
          ⟨sz, ⟨1, r, 8⟩, data.drop n⟩) := by
  intro n
  induction n with
  | zero => intro data buffer _; simp [windowNextLoop]
  | succ m ih =>
    intro data buffer h
    cases data with
    | nil => simp at h
    | cons b rest =>
      simp only [windowNextLoop, dataChunkNext_mono8_cons]
      rw [ih rest _ (by simp only [List.length_cons] at h; omega)]
      simp [List.take_succ_cons]

theorem windowNextLoop_mono8_short (sz r : ℕ) :
    ∀ (n : ℕ) (data : List ℕ) (buffer : List (List (Option ℤ))),
      data.length < n → buffer ++ data.map (fun b : ℕ => [some (b : ℤ)]) ≠ [] →
      windowNextLoop n ⟨sz, ⟨1, r, 8⟩, data⟩ buffer =
        (some (buffer ++ data.map (fun b : ℕ => [some (b : ℤ)])), ⟨sz, ⟨1, r, 8⟩, []⟩) := by
  intro n
  induction n with
  | zero => intro data buffer h _; exact absurd h (Nat.not_lt_zero _)
  | succ m ih =>
    intro data buffer h hne
    cases data with
    | nil =>
      simp only [windowNextLoop, dataChunkNext_mono8_nil]
      have hb : buffer ≠ [] := by
        intro hc
        apply hne
        rw [hc]
        simp
      rw [if_neg hb]
      simp
    | cons b rest =>
      simp only [windowNextLoop, dataChunkNext_mono8_cons]
      rw [ih rest (buffer ++ [[some (b : ℤ)]])
        (by simp only [List.length_cons] at h; omega) (by simp)]
      simp

theorem windowNextLoop_mono8_exhausted (sz r n : ℕ) :
    windowNextLoop (n + 1) ⟨sz, ⟨1, r, 8⟩, []⟩ [] = (none, ⟨sz, ⟨1, r, 8⟩, []⟩) := by
  simp [windowNextLoop, dataChunkNext_mono8_nil]

/-- C4 counterexample: for the validated format (2 channels, sample rate 2,
16 bits per sample) the `chunks_byte_rate` window holds `byte_rate = 8`
inter-channel groups — 32 bytes of payload (40 bytes minus the 8 left) — while
the claim's one-second window would be `sample_rate = 2` groups, i.e.
`channel_count * bps/8 * sample_rate = 8` bytes. -/
theorem c4_counterexample_window_not_one_second :
    (PCMWaveDataChunk.chunks_byte_rate ⟨40, ⟨2, 2, 16⟩, List.replicate 40 0⟩).chunk_size = 8 ∧
      (windowNext (PCMWaveDataChunk.chunks_byte_rate
          ⟨40, ⟨2, 2, 16⟩, List.replicate 40 0⟩)).1.map List.length = some 8 ∧
      (windowNext (PCMWaveDataChunk.chunks_byte_rate
          ⟨40, ⟨2, 2, 16⟩, List.replicate 40 0⟩)).2.data.length = 8 ∧
      ¬ ((8 : ℕ) = 2) ∧ ¬ ((40 - 8 : ℕ) = 8) := by
  decide

/-- C4 as amended: `chunks_byte_rate` derives the window size from the format
as `byte_rate = sample_rate * channel_count * bps/8`, but that is the number of
inter-channel GROUPS per full window (so `byte_rate * block_align` bytes of
payload), which is one second of audio only when one group is one byte. -/
theorem c4_chunks_byte_rate_window_in_groups (sz : ℕ) (fmt : PCMWaveFormatChunk)
    (data : List ℕ) (hbs : fmt.bps / 8 ≠ 0)
    (hlen : byte_rate fmt * block_align fmt ≤ data.length) :
    (PCMWaveDataChunk.chunks_byte_rate ⟨sz, fmt, data⟩).chunk_size = byte_rate fmt ∧
      (windowNext (PCMWaveDataChunk.chunks_byte_rate ⟨sz, fmt, data⟩)).1.map List.length =
        some (byte_rate fmt) ∧
      (windowNext (PCMWaveDataChunk.chunks_byte_rate ⟨sz, fmt, data⟩)).2.data =
        data.drop (byte_rate fmt * block_align fmt) := by
  refine ⟨rfl, ?_, ?_⟩
  · simp only [windowNext, PCMWaveDataChunk.chunks_byte_rate]
    rw [windowNextLoop_full sz fmt hbs (byte_rate fmt) data [] hlen]
    simp [length_pulledGroups]
  · simp only [windowNext, PCMWaveDataChunk.chunks_byte_rate]
    rw [windowNextLoop_full sz fmt hbs (byte_rate fmt) data [] hlen]

theorem c4_chunks_byte_rate_window_in_groups_witness :
    ((16 : ℕ) / 8 ≠ 0) ∧
      byte_rate ⟨2, 2, 16⟩ * block_align ⟨2, 2, 16⟩ ≤ (List.replicate 40 (0 : ℕ)).length ∧
      ((PCMWaveDataChunk.chunks_byte_rate
          ⟨40, ⟨2, 2, 16⟩, List.replicate 40 0⟩).chunk_size = byte_rate ⟨2, 2, 16⟩ ∧
        (windowNext (PCMWaveDataChunk.chunks_byte_rate
            ⟨40, ⟨2, 2, 16⟩, List.replicate 40 0⟩)).1.map List.length =
          some (byte_rate ⟨2, 2, 16⟩) ∧
        (windowNext (PCMWaveDataChunk.chunks_byte_rate
            ⟨40, ⟨2, 2, 16⟩, List.replicate 40 0⟩)).2.data =
          (List.replicate 40 (0 : ℕ)).drop (byte_rate ⟨2, 2, 16⟩ * block_align ⟨2, 2, 16⟩)) :=
  ⟨by decide, by decide,
    c4_chunks_byte_rate_window_in_groups 40 ⟨2, 2, 16⟩ (List.replicate 40 0)
      (by decide) (by decide)⟩

/-- C6: a 12-byte header `RIFF`/size 0/`WAVE` parses as little-endian, the
`RIFX` variant as big-endian, and any corruption of the first tag byte is
rejected with `NotRiffError` (the reader's format-error class). -/
theorem c6_riff_identification :
    readRiffChunk [0x52, 0x49, 0x46, 0x46, 0, 0, 0, 0, 0x57, 0x41, 0x56, 0x45] =
        Except.ok { file_size := 0, is_big_endian := false } ∧
      readRiffChunk [0x52, 0x49, 0x46, 0x58, 0, 0, 0, 0, 0x57, 0x41, 0x56, 0x45] =
        Except.ok { file_size := 0, is_big_endian := true } ∧
      ∀ b : ℕ, b < 256 → b ≠ 0x52 →
        readRiffChunk [b, 0x49, 0x46, 0x46, 0, 0, 0, 0, 0x57, 0x41, 0x56, 0x45] =
          Except.error WaveReaderError.NotRiffError := by
  refine ⟨by decide, by decide, ?_⟩
  intro b _ hne
  unfold readRiffChunk
  rw [if_neg (by simp)]
  rw [if_pos ⟨by simp [hne], by simp⟩]

theorem c6_riff_identification_witness :
    (0 : ℕ) < 256 ∧ (0 : ℕ) ≠ 0x52 ∧
      readRiffChunk [0, 0x49, 0x46, 0x46, 0, 0, 0, 0, 0x57, 0x41, 0x56, 0x45] =
        Except.error WaveReaderError.NotRiffError :=
  ⟨by decide, by decide, c6_riff_identification.2.2 0 (by decide) (by decide)⟩

/-- C7: windowing a payload of exactly 10 inter-channel groups (mono 8-bit:
one byte per group) with a caller-chosen window of 4 yields pulls of sizes
4, 4, 2 (the last partial and non-empty), then end-of-stream `none`. -/
theorem c7_windowing_10_groups_by_4 (sz r : ℕ) (data : List ℕ) (h : data.length = 10) :
    (windowPulls 4 (PCMWaveDataChunk.chunks ⟨sz, ⟨1, r, 8⟩, data⟩ 4)).map
      (Option.map List.length) = [some 4, some 4, some 2, none] := by
  have h1 := windowNextLoop_mono8_full sz r 4 data [] (by omega)
  have h2 := windowNextLoop_mono8_full sz r 4 (data.drop 4) [] (by simp [h])
  have h3 := windowNextLoop_mono8_short sz r 4 ((data.drop 4).drop 4) []
    (by simp [h]) (by
      have hl : (((data.drop 4).drop 4).map
          (fun b : ℕ => [some (b : ℤ)])).length = 2 := by simp [h]
      intro hC
      rw [List.nil_append] at hC
      rw [hC] at hl
      simp at hl)
  have h4 := windowNextLoop_mono8_exhausted sz r 3
  simp only [windowPulls, windowNext, PCMWaveDataChunk.chunks, h1, h2, h3, h4]
  simp [h]

theorem c7_windowing_10_groups_by_4_witness :
    (List.replicate 10 (5 : ℕ)).length = 10 ∧
      (windowPulls 4 (PCMWaveDataChunk.chunks
          ⟨0, ⟨1, 44100, 8⟩, List.replicate 10 5⟩ 4)).map
        (Option.map List.length) = [some 4, some 4, some 2, none] :=
  ⟨by decide, c7_windowing_10_groups_by_4 0 44100 (List.replicate 10 5) (by decide)⟩

/-- C8: a width-0 CRC configuration is not reported as an error — the checked
embedding of `build_crc8` panics (`poly_len - 1` underflows, `none`), and for
nonzero width the function returns a bare checksum: its `u8` return type has no
error case, so no error value exists to report. -/
theorem c8_crc_width_zero_panics_without_error :
    buildCrcChecked 0 7 [1, 0, 1, 1] = none ∧
      buildCrcChecked 8 7 [1, 0, 1, 1] = some (buildCrc 8 7 [1, 0, 1, 1]) :=
  ⟨rfl, rfl⟩

/-- C9: the per-sample decode rule is selected from the channel count alone:
any channel count other than 2 returns the group's first byte zero-extended
(nonnegative), whatever the declared bits-per-sample (a 3-channel 16-bit
stream decodes first bytes, not 16-bit integers); channel count 2 reads a
signed little-endian 16-bit integer from the group's first two bytes. -/
theorem c9_sample_decode_selected_by_channels_only :
    (∀ ch : ℕ, ch ≠ 2 → ∀ (b0 : ℕ) (rest : List ℕ),
        decodeSample ch (b0 :: rest) = some ((b0 : ℕ) : ℤ) ∧ (0 : ℤ) ≤ ((b0 : ℕ) : ℤ)) ∧
      (∀ (b0 b1 : ℕ) (rest : List ℕ),
        decodeSample 2 (b0 :: b1 :: rest) =
          some (if b0 + 256 * b1 < 32768 then ((b0 + 256 * b1 : ℕ) : ℤ)
            else ((b0 + 256 * b1 : ℕ) : ℤ) - 65536)) ∧
      dataChunkNext ⟨0, ⟨3, 44100, 16⟩, [1, 2, 3, 4, 5, 6]⟩ =
        some ([some 1, some 3, some 5], ⟨0, ⟨3, 44100, 16⟩, []⟩) ∧
      dataChunkNext ⟨0, ⟨2, 44100, 16⟩, [1, 2, 3, 4]⟩ =
        some ([some 513, some 1027], ⟨0, ⟨2, 44100, 16⟩, []⟩) := by
  refine ⟨?_, ?_, by decide, by decide⟩
  · intro ch hch b0 rest
    refine ⟨?_, by positivity⟩
    match ch, hch with
    | 0, _ => rfl
    | 1, _ => rfl
    | 2, hch => exact absurd rfl hch
    | n + 3, _ => rfl
  · intro b0 b1 rest
    rfl

theorem c9_sample_decode_selected_by_channels_only_witness :
    (1 : ℕ) ≠ 2 ∧ decodeSample 1 [200, 7] = some ((200 : ℕ) : ℤ) :=
  ⟨by decide, (c9_sample_decode_selected_by_channels_only.1 1 (by decide) 200 [7]).1⟩

/-- C10: a pull never consults the declared `size_bytes` — two chunks that
differ only there produce identical samples and identical remaining bytes —
and after `read_data_chunk` records a declared length of 1 byte, a 3-byte
payload still yields three sample groups before end-of-stream. -/
theorem c10_next_ignores_declared_size :
    (∀ (sb1 sb2 : ℕ) (fmt : PCMWaveFormatChunk) (data : List ℕ),
        (dataChunkNext ⟨sb1, fmt, data⟩).map (fun r => (r.1, r.2.format, r.2.data)) =
          (dataChunkNext ⟨sb2, fmt, data⟩).map (fun r => (r.1, r.2.format, r.2.data))) ∧
      readDataChunk ⟨1, 44100, 8⟩ [0x64, 0x61, 0x74, 0x61, 1, 0, 0, 0, 5, 6, 7] =
        Except.ok ⟨1, ⟨1, 44100, 8⟩, [5, 6, 7]⟩ ∧
      dataChunkNext ⟨1, ⟨1, 44100, 8⟩, [5, 6, 7]⟩ =
        some ([some 5], ⟨1, ⟨1, 44100, 8⟩, [6, 7]⟩) ∧
      dataChunkNext ⟨1, ⟨1, 44100, 8⟩, [6, 7]⟩ =
        some ([some 6], ⟨1, ⟨1, 44100, 8⟩, [7]⟩) ∧
      dataChunkNext ⟨1, ⟨1, 44100, 8⟩, [7]⟩ =
        some ([some 7], ⟨1, ⟨1, 44100, 8⟩, []⟩) ∧
      dataChunkNext ⟨1, ⟨1, 44100, 8⟩, ([] : List ℕ)⟩ = none := by
  refine ⟨?_, by decide, by decide, by decide, by decide, by decide⟩
  intro sb1 sb2 fmt data
  unfold dataChunkNext
  by_cases h1 : data.length < block_align fmt
  · rw [if_pos h1, if_pos h1]
  · rw [if_neg h1, if_neg h1]
    by_cases h2 : fmt.bps / 8 = 0
    · rw [if_pos h2, if_pos h2]
    · rw [if_neg h2, if_neg h2]
      rfl
